/-
Verification of the moderation-and-redaction pipeline
(backend/app/moderation_pipeline.py, backend/app/transcription/diarization.py,
backend/app/classification_model/hate_speech_classifier.py).

Python floats are modelled as rationals (the algorithms use only ordered-field
operations: comparison, min, max, addition, multiplication by 1000).
Millisecond positions are integers.  Python `int(x)` (truncation toward zero)
is modelled by `intTrunc`.  Python's `sorted` (a stable sort) is modelled by
`List.insertionSort` under the lexicographic pair order; since that order is
total and antisymmetric, the sorted permutation of a list is unique, so any
sorting algorithm produces exactly Python's result.
-/
import Mathlib

/-- Python `int(q)`: truncation toward zero. -/
def intTrunc (q : ℚ) : ℤ := q.num.tdiv q.den

theorem intTrunc_eq (q : ℚ) : intTrunc q = if 0 ≤ q then ⌊q⌋ else ⌈q⌉ := by
  unfold intTrunc
  have hden : (0 : ℤ) ≤ (q.den : ℤ) := Int.natCast_nonneg _
  by_cases h : 0 ≤ q
  · rw [if_pos h]
    rw [Int.tdiv_eq_ediv (Rat.num_nonneg.mpr h) hden]
    conv_rhs => rw [← Rat.num_div_den q]
    rw [Rat.floor_intCast_div_natCast]
  · rw [if_neg h]
    have hnum : 0 ≤ -q.num := by
      have h2 := Rat.num_neg.mpr (lt_of_not_le h)
      omega
    have h1 : q.num.tdiv (q.den : ℤ) = -((-q.num).tdiv (q.den : ℤ)) := by
      rw [Int.neg_tdiv]; ring
    rw [h1, Int.tdiv_eq_ediv hnum hden]
    have hfloor : ⌊-q⌋ = -q.num / (q.den : ℤ) := by
      conv_lhs => rw [← Rat.num_div_den (-q)]
      rw [Rat.neg_num, Rat.neg_den]
      exact Rat.floor_intCast_div_natCast _ _
    rw [Int.floor_neg] at hfloor
    omega

theorem intTrunc_ofNat (n : ℕ) [n.AtLeastTwo] :
    intTrunc (no_index (OfNat.ofNat n) : ℚ) = OfNat.ofNat n := by
  simp only [intTrunc, Rat.num_ofNat, Rat.den_ofNat, Nat.cast_one, Int.tdiv_one]

theorem intTrunc_zero : intTrunc 0 = 0 := by
  simp [intTrunc, Int.tdiv]

theorem intTrunc_one : intTrunc 1 = 1 := by
  simp [intTrunc, Int.tdiv]

theorem intTrunc_neg (q : ℚ) : intTrunc (-q) = -(intTrunc q) := by
  simp [intTrunc, Rat.neg_num, Rat.neg_den, Int.neg_tdiv]

theorem intTrunc_mono {a b : ℚ} (h : a ≤ b) : intTrunc a ≤ intTrunc b := by
  rw [intTrunc_eq, intTrunc_eq]
  by_cases ha : 0 ≤ a
  · rw [if_pos ha, if_pos (le_trans ha h)]
    exact Int.floor_le_floor h
  · rw [if_neg ha]
    by_cases hb : 0 ≤ b
    · rw [if_pos hb]
      calc ⌈a⌉ ≤ ⌈(0 : ℚ)⌉ := Int.ceil_le_ceil (le_of_not_le ha)
        _ = 0 := by norm_num
        _ ≤ ⌊b⌋ := Int.le_floor.mpr (by exact_mod_cast hb)
    · rw [if_neg hb]
      exact Int.ceil_le_ceil h

/-- A flagged time interval in seconds, as in `moderation_pipeline.py`. -/
abbrev FlagInterval := ℚ × ℚ

/-- Python tuple comparison: lexicographic order on pairs. -/
def lexR (a b : FlagInterval) : Prop := a.1 < b.1 ∨ (a.1 = b.1 ∧ a.2 ≤ b.2)

instance : DecidableRel lexR := fun a b =>
  inferInstanceAs (Decidable (a.1 < b.1 ∨ (a.1 = b.1 ∧ a.2 ≤ b.2)))

instance : IsTrans FlagInterval lexR := by
  constructor
  rintro a b c (h₁ | ⟨h₁, h₁'⟩) (h₂ | ⟨h₂, h₂'⟩)
  · exact Or.inl (lt_trans h₁ h₂)
  · exact Or.inl (h₂ ▸ h₁)
  · exact Or.inl (h₁ ▸ h₂)
  · exact Or.inr ⟨h₁.trans h₂, le_trans h₁' h₂'⟩

instance : IsTotal FlagInterval lexR := by
  constructor
  intro a b
  rcases lt_trichotomy a.1 b.1 with h | h | h
  · exact Or.inl (Or.inl h)
  · rcases le_total a.2 b.2 with h2 | h2
    · exact Or.inl (Or.inr ⟨h, h2⟩)
    · exact Or.inr (Or.inr ⟨h.symm, h2⟩)
  · exact Or.inr (Or.inl h)

instance : IsAntisymm FlagInterval lexR := by
  constructor
  rintro ⟨a₁, a₂⟩ ⟨b₁, b₂⟩ (h₁ | ⟨h₁, h₁'⟩) (h₂ | ⟨h₂, h₂'⟩)
  · exact absurd (lt_trans h₁ h₂) (lt_irrefl _)
  · exact absurd (h₂ ▸ h₁) (lt_irrefl _)
  · exact absurd (h₁ ▸ h₂) (lt_irrefl _)
  · cases h₁
    have : a₂ = b₂ := le_antisymm h₁' h₂'
    rw [this]

/-- The accumulation loop of `_merge_intervals`: `current` is the run being
built, `rest` the remaining sorted intervals. -/
def mergeLoop (current : FlagInterval) (rest : List FlagInterval) : List FlagInterval :=
  match rest with
  | [] => [current]
  | (s, e) :: tl =>
    if s ≤ current.2 then mergeLoop (current.1, max current.2 e) tl
    else current :: mergeLoop (s, e) tl

/-- Running `mergeLoop` on a (sorted) list: the body of the merge after sorting. -/
def mergeRuns (sortedIntervals : List FlagInterval) : List FlagInterval :=
  match sortedIntervals with
  | [] => []
  | h :: t => mergeLoop h t

/-- `AudioModerationPipeline._merge_intervals`: clamp each interval to
`(max 0 start, max start end)`, sort lexicographically (Python `sorted` on
tuples), then merge runs of intervals whose start is `<=` the current end. -/
def mergeIntervals (intervals : List FlagInterval) : List FlagInterval :=
  mergeRuns (List.insertionSort lexR (intervals.map (fun p => (max 0 p.1, max p.1 p.2))))

theorem lexR_start_le {a b : FlagInterval} (h : lexR a b) : a.1 ≤ b.1 := by
  rcases h with h | ⟨h, _⟩
  · exact le_of_lt h
  · exact le_of_eq h

theorem mergeLoop_ne_nil : ∀ (rest : List FlagInterval) (cur : FlagInterval),
    mergeLoop cur rest ≠ [] := by
  intro rest
  induction rest with
  | nil => intro cur; simp [mergeLoop]
  | cons q tl ih =>
    intro cur
    simp only [mergeLoop]
    split
    · exact ih _
    · simp

theorem mergeLoop_start_pred (P : ℚ → Prop) :
    ∀ (rest : List FlagInterval) (cur : FlagInterval), P cur.1 → (∀ q ∈ rest, P q.1) →
      ∀ p ∈ mergeLoop cur rest, P p.1 := by
  intro rest
  induction rest with
  | nil =>
    intro cur hc _ p hp
    simp only [mergeLoop, List.mem_singleton] at hp
    rw [hp]; exact hc
  | cons q tl ih =>
    intro cur hc hr p hp
    simp only [mergeLoop] at hp
    split at hp
    · exact ih (cur.1, max cur.2 q.2) hc (fun x hx => hr x (List.mem_cons_of_mem _ hx)) p hp
    · rcases List.mem_cons.mp hp with h | h
      · rw [h]; exact hc
      · exact ih q (hr q (List.mem_cons_self _ _))
          (fun x hx => hr x (List.mem_cons_of_mem _ hx)) p h

theorem mergeLoop_wf :
    ∀ (rest : List FlagInterval) (cur : FlagInterval), cur.1 ≤ cur.2 →
      (∀ q ∈ rest, q.1 ≤ q.2) → ∀ p ∈ mergeLoop cur rest, p.1 ≤ p.2 := by
  intro rest
  induction rest with
  | nil =>
    intro cur hc _ p hp
    simp only [mergeLoop, List.mem_singleton] at hp
    rw [hp]; exact hc
  | cons q tl ih =>
    intro cur hc hr p hp
    simp only [mergeLoop] at hp
    split at hp
    · exact ih (cur.1, max cur.2 q.2) (le_trans hc (le_max_left _ _))
        (fun x hx => hr x (List.mem_cons_of_mem _ hx)) p hp
    · rcases List.mem_cons.mp hp with h | h
      · rw [h]; exact hc
      · exact ih q (hr q (List.mem_cons_self _ _))
          (fun x hx => hr x (List.mem_cons_of_mem _ hx)) p h

theorem mergeLoop_chain :
    ∀ (rest : List FlagInterval) (cur : FlagInterval),
      rest.Pairwise (fun a b => a.1 ≤ b.1) → (∀ q ∈ rest, cur.1 ≤ q.1) →
      List.Chain' (fun a b : FlagInterval => a.1 ≤ b.1 ∧ a.2 < b.1) (mergeLoop cur rest) := by
  intro rest
  induction rest with
  | nil => intro cur _ _; simp [mergeLoop]
  | cons q tl ih =>
    intro cur hsorted hr
    simp only [mergeLoop]
    split
    · exact ih (cur.1, max cur.2 q.2) hsorted.of_cons
        (fun x hx => hr x (List.mem_cons_of_mem _ hx))
    · rename_i hmerge
      push_neg at hmerge
      rw [List.chain'_cons']
      refine ⟨?_, ih q hsorted.of_cons (fun x hx => List.rel_of_pairwise_cons hsorted hx)⟩
      intro y hy
      have hy' : y ∈ mergeLoop q tl := List.mem_of_mem_head? hy
      have hq : q.1 ≤ y.1 :=
        mergeLoop_start_pred (fun x => q.1 ≤ x) tl q le_rfl
          (fun x hx => List.rel_of_pairwise_cons hsorted hx) y hy'
      exact ⟨le_trans (hr q (List.mem_cons_self _ _)) hq, lt_of_lt_of_le hmerge hq⟩

theorem mergeRuns_start_pred (P : ℚ → Prop) (L : List FlagInterval)
    (hmem : ∀ q ∈ L, P q.1) : ∀ p ∈ mergeRuns L, P p.1 := by
  cases L with
  | nil => intro p hp; cases hp
  | cons h t =>
    exact mergeLoop_start_pred P t h (hmem h (List.mem_cons_self _ _))
      (fun q hq => hmem q (List.mem_cons_of_mem _ hq))

theorem mergeRuns_wf (L : List FlagInterval)
    (hmem : ∀ q ∈ L, q.1 ≤ q.2) : ∀ p ∈ mergeRuns L, p.1 ≤ p.2 := by
  cases L with
  | nil => intro p hp; cases hp
  | cons h t =>
    exact mergeLoop_wf t h (hmem h (List.mem_cons_self _ _))
      (fun q hq => hmem q (List.mem_cons_of_mem _ hq))

theorem mergeRuns_chain (L : List FlagInterval) (hsorted : L.Pairwise lexR) :
    List.Chain' (fun a b : FlagInterval => a.1 ≤ b.1 ∧ a.2 < b.1) (mergeRuns L) := by
  cases L with
  | nil => exact List.chain'_nil
  | cons h t =>
    exact mergeLoop_chain t h
      (hsorted.of_cons.imp (fun hab => lexR_start_le hab))
      (fun q hq => lexR_start_le (List.rel_of_pairwise_cons hsorted hq))

theorem sortedClamped_mem {l : List FlagInterval} {q : FlagInterval}
    (hq : q ∈ List.insertionSort lexR (l.map (fun p => (max 0 p.1, max p.1 p.2)))) :
    ∃ x ∈ l, (max 0 x.1, max x.1 x.2) = q := by
  rw [List.mem_insertionSort] at hq
  rcases List.mem_map.mp hq with ⟨x, hxl, hx⟩
  exact ⟨x, hxl, hx⟩

/-- Every output interval of the merge step has nonnegative start. -/
theorem mergeIntervals_start_nonneg (l : List FlagInterval) :
    ∀ p ∈ mergeIntervals l, 0 ≤ p.1 := by
  refine mergeRuns_start_pred (fun x => 0 ≤ x) _ ?_
  intro q hq
  rcases sortedClamped_mem hq with ⟨x, _, hx⟩
  rw [← hx]
  exact le_max_left _ _

/-- Consecutive merged intervals are ordered and separated by a positive gap. -/
theorem mergeIntervals_chain (l : List FlagInterval) :
    List.Chain' (fun a b : FlagInterval => a.1 ≤ b.1 ∧ a.2 < b.1) (mergeIntervals l) :=
  mergeRuns_chain _ (List.sorted_insertionSort lexR _)

/-- When every input interval has a nonnegative endpoint, every merged interval
is well-formed (`start <= end`). -/
theorem mergeIntervals_wf (l : List FlagInterval)
    (h : ∀ p ∈ l, 0 ≤ p.1 ∨ 0 ≤ p.2) : ∀ p ∈ mergeIntervals l, p.1 ≤ p.2 := by
  refine mergeRuns_wf _ ?_
  intro q hq
  rcases sortedClamped_mem hq with ⟨x, hxl, hx⟩
  rw [← hx]
  rcases h x hxl with hx1 | hx2
  · exact le_trans (le_of_eq (max_eq_right hx1)) (le_max_left _ _)
  · exact max_le (le_trans hx2 (le_max_right _ _)) (le_max_left _ _)

theorem mergeLoop_of_gaps :
    ∀ (rest : List FlagInterval) (cur : FlagInterval),
      List.Chain' (fun a b : FlagInterval => a.2 < b.1) (cur :: rest) →
      mergeLoop cur rest = cur :: rest := by
  intro rest
  induction rest with
  | nil => intro cur _; simp [mergeLoop]
  | cons q tl ih =>
    intro cur hch
    rw [List.chain'_cons] at hch
    simp only [mergeLoop]
    rw [if_neg (not_le.mpr hch.1)]
    rw [ih q hch.2]

theorem pairwise_lexR_of_gaps :
    ∀ (m : List FlagInterval), List.Chain' (fun a b : FlagInterval => a.2 < b.1) m →
      (∀ p ∈ m, p.1 ≤ p.2) → m.Pairwise lexR := by
  intro m
  induction m with
  | nil => intro _ _; exact List.Pairwise.nil
  | cons a tl ih =>
    intro hch hwf
    rw [List.chain'_cons'] at hch
    refine List.Pairwise.cons ?_ (ih hch.2 (fun p hp => hwf p (List.mem_cons_of_mem _ hp)))
    intro b hb
    cases tl with
    | nil => cases hb
    | cons c tl' =>
      have hac : a.2 < c.1 := hch.1 c rfl
      have ha : a.1 ≤ a.2 := hwf a (List.mem_cons_self _ _)
      rcases List.mem_cons.mp hb with h | h
      · rw [h]
        exact Or.inl (lt_of_le_of_lt ha hac)
      · have hpc : (c :: tl').Pairwise lexR :=
          ih hch.2 (fun p hp => hwf p (List.mem_cons_of_mem _ hp))
        have hcb : lexR c b := List.rel_of_pairwise_cons hpc h
        exact Or.inl (lt_of_le_of_lt ha (lt_of_lt_of_le hac (lexR_start_le hcb)))

theorem map_clamp_eq_self :
    ∀ (m : List FlagInterval), (∀ p ∈ m, 0 ≤ p.1 ∧ p.1 ≤ p.2) →
      m.map (fun p => (max 0 p.1, max p.1 p.2)) = m := by
  intro m
  induction m with
  | nil => intro _; rfl
  | cons a tl ih =>
    intro h
    obtain ⟨ha1, ha2⟩ := h a (List.mem_cons_self _ _)
    simp only [List.map_cons]
    rw [ih (fun p hp => h p (List.mem_cons_of_mem _ hp))]
    rw [max_eq_right ha1, max_eq_right ha2]

/-- A list that is already clamped, sorted and gap-separated is a fixed point
of the merge step. -/
theorem mergeIntervals_fixpoint (m : List FlagInterval)
    (hwf : ∀ p ∈ m, 0 ≤ p.1 ∧ p.1 ≤ p.2)
    (hch : List.Chain' (fun a b : FlagInterval => a.2 < b.1) m) :
    mergeIntervals m = m := by
  unfold mergeIntervals
  rw [map_clamp_eq_self m hwf]
  rw [List.Sorted.insertionSort_eq
    (pairwise_lexR_of_gaps m hch (fun p hp => (hwf p hp).2))]
  cases m with
  | nil => rfl
  | cons h t => exact mergeLoop_of_gaps t h hch

/-- Merging is idempotent whenever every input interval has a nonnegative
endpoint. -/
theorem mergeIntervals_idem (l : List FlagInterval)
    (h : ∀ p ∈ l, 0 ≤ p.1 ∨ 0 ≤ p.2) :
    mergeIntervals (mergeIntervals l) = mergeIntervals l :=
  mergeIntervals_fixpoint _
    (fun p hp => ⟨mergeIntervals_start_nonneg l p hp, mergeIntervals_wf l h p hp⟩)
    ((mergeIntervals_chain l).imp (fun _ _ hab => hab.2))

/-- Millisecond start of an interval: `max(0, int(start_sec * 1000))`. -/
def msStart (p : FlagInterval) : ℤ := max 0 (intTrunc (p.1 * 1000))

/-- Millisecond end of an interval: `max(start_ms, int(end_sec * 1000))`. -/
def msEnd (p : FlagInterval) : ℤ := max (msStart p) (intTrunc (p.2 * 1000))

/-- Second→millisecond conversion applied by `_invert_intervals` to each interval. -/
def msOf (p : FlagInterval) : ℤ × ℤ := (msStart p, msEnd p)

/-- The loop of `_invert_intervals`, including the `break` once the cursor
reaches the total duration.  The cursor `c` is in milliseconds. -/
def invertGo (dur : ℤ) : List FlagInterval → ℤ → List (ℤ × ℤ)
  | [], c => if c < dur then [(c, dur)] else []
  | (s, e) :: rest, c =>
    let sMs := max 0 (intTrunc (s * 1000))
    let eMs := max sMs (intTrunc (e * 1000))
    let emitted := if c < sMs then [(c, min sMs dur)] else []
    let c2 := max c (min eMs dur)
    if dur ≤ c2 then emitted else emitted ++ invertGo dur rest c2

/-- `AudioModerationPipeline._invert_intervals`: complement of the given
intervals against `[0, duration_ms)`, dropping zero-length slices. -/
def invertIntervals (intervals : List FlagInterval) (durationMs : ℤ) : List (ℤ × ℤ) :=
  if durationMs ≤ 0 then []
  else (invertGo durationMs intervals 0).filter (fun p => p.1 < p.2)

/-- The cursor walk exactly as the spec words it (no early exit): emit
`[cursor, min(start, duration))` whenever `start > cursor`, advance the cursor
to `max(cursor, min(end, duration))`, finally emit `[cursor, duration)` if
`cursor < duration`.  Operates on already-converted millisecond intervals. -/
def invertWalk (dur : ℤ) : List (ℤ × ℤ) → ℤ → List (ℤ × ℤ)
  | [], c => if c < dur then [(c, dur)] else []
  | (s, e) :: rest, c =>
    (if c < s then [(c, min s dur)] else []) ++ invertWalk dur rest (max c (min e dur))

/-- The keep-range computation as described by the spec: the cursor walk over
the millisecond intervals followed by dropping the zero-length ranges. -/
def invertSpec (intervals : List (ℤ × ℤ)) (dur : ℤ) : List (ℤ × ℤ) :=
  (invertWalk dur intervals 0).filter (fun p => p.1 < p.2)

/-- Total length of a list of millisecond ranges. -/
def keepTotal (l : List (ℤ × ℤ)) : ℤ := (l.map (fun p => p.2 - p.1)).sum

/-- Length of one merged interval after millisecond conversion and clamping to
`[0, dur]`. -/
def clampedMsLen (dur : ℤ) (p : FlagInterval) : ℤ :=
  min (msEnd p) dur - min (msStart p) dur

/-- Once the cursor has reached the duration, the rest of the walk contributes
only zero-length (filtered-out) ranges. -/
theorem walk_filter_of_ge (dur : ℤ) :
    ∀ (L : List (ℤ × ℤ)) (c : ℤ), dur ≤ c →
      (invertWalk dur L c).filter (fun p => p.1 < p.2) = [] := by
  intro L
  induction L with
  | nil =>
    intro c hc
    simp [invertWalk, not_lt.mpr hc]
  | cons q tl ih =>
    intro c hc
    obtain ⟨s, e⟩ := q
    simp only [invertWalk, List.filter_append]
    rw [ih (max c (min e dur)) (le_trans hc (le_max_left _ _))]
    rw [List.append_nil]
    split
    · have hn : ¬ c < min s dur := by
        have := min_le_right s dur
        omega
      simp [hn]
    · rfl

/-- The code loop (with its early `break`) and the spec walk produce the same
keep ranges after zero-length filtering. -/
theorem invertGo_filter_eq_walk (dur : ℤ) :
    ∀ (l : List FlagInterval) (c : ℤ),
      (invertGo dur l c).filter (fun p => p.1 < p.2) =
      (invertWalk dur (l.map msOf) c).filter (fun p => p.1 < p.2) := by
  intro l
  induction l with
  | nil => intro c; rfl
  | cons q rest ih =>
    intro c
    obtain ⟨s, e⟩ := q
    simp only [invertGo, invertWalk, List.map_cons, msOf, msStart, msEnd, List.filter_append]
    split
    · rename_i hbreak
      rw [walk_filter_of_ge dur _ _ hbreak]
      rw [List.append_nil]
    · rw [List.filter_append, ih _]

/-- The code inverter equals the spec walk on the converted intervals. -/
theorem invertIntervals_eq_spec (l : List FlagInterval) (dur : ℤ) :
    invertIntervals l dur = invertSpec (l.map msOf) dur := by
  unfold invertIntervals invertSpec
  split
  · rename_i hdur
    rw [walk_filter_of_ge dur _ 0 hdur]
  · exact invertGo_filter_eq_walk dur l 0

/-- Structural properties of the spec walk: entries are well-formed, bounded by
the cursor and the duration, and pairwise ordered. -/
theorem invertWalk_props (dur : ℤ) :
    ∀ (L : List (ℤ × ℤ)) (c : ℤ), 0 ≤ c → c ≤ dur → (∀ p ∈ L, p.1 ≤ p.2) →
      (∀ p ∈ invertWalk dur L c, c ≤ p.1 ∧ p.1 ≤ p.2 ∧ p.2 ≤ dur) ∧
      (invertWalk dur L c).Pairwise (fun a b => a.2 ≤ b.1) := by
  intro L
  induction L with
  | nil =>
    intro c hc0 hcd _
    constructor
    · intro p hp
      rw [invertWalk] at hp
      split at hp
      · rcases List.mem_singleton.mp hp with h
        rw [h]
        exact ⟨le_rfl, by rename_i hlt; exact le_of_lt hlt, le_rfl⟩
      · cases hp
    · rw [invertWalk]
      split
      · exact List.pairwise_singleton _ _
      · exact List.Pairwise.nil
  | cons q tl ih =>
    intro c hc0 hcd hwf
    obtain ⟨s, e⟩ := q
    have hse : s ≤ e := hwf (s, e) (List.mem_cons_self _ _)
    have hwf' : ∀ p ∈ tl, p.1 ≤ p.2 := fun p hp => hwf p (List.mem_cons_of_mem _ hp)
    set c2 := max c (min e dur) with hc2
    have hc20 : 0 ≤ c2 := le_trans hc0 (le_max_left _ _)
    have hc2d : c2 ≤ dur := max_le hcd (min_le_right _ _)
    obtain ⟨ihmem, ihpw⟩ := ih c2 hc20 hc2d hwf'
    have hemit : ∀ p ∈ (if c < s then [((c : ℤ), min s dur)] else []),
        c ≤ p.1 ∧ p.1 ≤ p.2 ∧ p.2 ≤ dur := by
      intro p hp
      split at hp
      · rename_i hcs
        rcases List.mem_singleton.mp hp with h
        rw [h]
        exact ⟨le_rfl, le_min (le_of_lt hcs) hcd, min_le_right _ _⟩
      · cases hp
    constructor
    · intro p hp
      rw [invertWalk] at hp
      rcases List.mem_append.mp hp with h | h
      · exact hemit p h
      · obtain ⟨h1, h2, h3⟩ := ihmem p h
        exact ⟨le_trans (le_max_left c (min e dur)) h1, h2, h3⟩
    · rw [invertWalk]
      rw [List.pairwise_append]
      refine ⟨?_, ihpw, ?_⟩
      · split
        · exact List.pairwise_singleton _ _
        · exact List.Pairwise.nil
      · intro a ha b hb
        have hb1 : c2 ≤ b.1 := (ihmem b hb).1
        split at ha
        · rcases List.mem_singleton.mp ha with h
          rw [h]
          have : min s dur ≤ min e dur := min_le_min_right _ hse
          exact le_trans (le_trans this (le_max_right _ _)) hb1
        · cases ha

theorem keepTotal_append (a b : List (ℤ × ℤ)) :
    keepTotal (a ++ b) = keepTotal a + keepTotal b := by
  unfold keepTotal
  rw [List.map_append, List.sum_append]

/-- Dropping zero-length ranges does not change the total length when no range
has negative length. -/
theorem keepTotal_filter (M : List (ℤ × ℤ)) (h : ∀ p ∈ M, p.1 ≤ p.2) :
    keepTotal (M.filter (fun p => p.1 < p.2)) = keepTotal M := by
  induction M with
  | nil => rfl
  | cons a tl ih =>
    have ha := h a (List.mem_cons_self _ _)
    have htl := ih (fun p hp => h p (List.mem_cons_of_mem _ hp))
    by_cases hlt : a.1 < a.2
    · rw [List.filter_cons_of_pos (by simpa using hlt)]
      unfold keepTotal at *
      simp only [List.map_cons, List.sum_cons]
      rw [htl]
    · rw [List.filter_cons_of_neg (by simpa using hlt)]
      unfold keepTotal at *
      simp only [List.map_cons, List.sum_cons]
      rw [htl]
      have : a.2 - a.1 = 0 := by omega
      rw [this]
      ring

/-- Total kept length of the spec walk: the complement of the clamped interval
lengths, for a sorted well-formed disjoint millisecond interval list. -/
theorem invertWalk_sum (dur : ℤ) :
    ∀ (L : List (ℤ × ℤ)) (c : ℤ), 0 ≤ c → c ≤ dur →
      L.Chain' (fun a b => a.2 ≤ b.1) → (∀ p ∈ L, p.1 ≤ p.2) →
      (∀ p ∈ L.head?, c ≤ p.1) →
      keepTotal (invertWalk dur L c) =
        (dur - c) - (L.map (fun p => min p.2 dur - min p.1 dur)).sum := by
  intro L
  induction L with
  | nil =>
    intro c _ hcd _ _ _
    rw [invertWalk]
    split
    · unfold keepTotal
      simp
    · unfold keepTotal
      simp only [List.map_nil, List.sum_nil, List.filter_nil]
      omega
  | cons q tl ih =>
    intro c hc0 hcd hch hwf hhead
    obtain ⟨s, e⟩ := q
    have hcs : c ≤ s := hhead (s, e) rfl
    have hse : s ≤ e := hwf (s, e) (List.mem_cons_self _ _)
    rw [List.chain'_cons'] at hch
    have hc2 : max c (min e dur) = min e dur :=
      max_eq_right (le_min (le_trans hcs hse) hcd)
    rw [invertWalk, keepTotal_append, hc2]
    have hih := ih (min e dur) (le_trans hc0 (le_min (le_trans hcs hse) hcd))
      (min_le_right _ _) hch.2 (fun p hp => hwf p (List.mem_cons_of_mem _ hp))
      (fun p hp => le_trans (min_le_left e dur) (hch.1 p hp))
    rw [hih]
    have hemit : keepTotal (if c < s then [((c : ℤ), min s dur)] else []) =
        min s dur - c := by
      split
      · unfold keepTotal
        simp
      · rename_i hns
        have hsc : s = c := le_antisymm (not_lt.mp hns) hcs
        have hmin : min s dur = c := by
          rw [hsc]
          exact min_eq_left hcd
        unfold keepTotal
        simp only [List.map_nil, List.sum_nil]
        omega
    rw [hemit]
    simp only [List.map_cons, List.sum_cons]
    omega

/-- Millisecond conversion preserves the ordering of a merged chain: the end of
one merged interval lands at or before the start of the next. -/
theorem msOf_chain (m : List FlagInterval)
    (hch : List.Chain' (fun a b : FlagInterval => a.1 ≤ b.1 ∧ a.2 < b.1) m) :
    (m.map msOf).Chain' (fun a b => a.2 ≤ b.1) := by
  rw [List.chain'_map]
  refine hch.imp ?_
  intro a b hab
  show msEnd a ≤ msStart b
  unfold msEnd msStart
  apply max_le
  · apply max_le (le_max_left _ _)
    refine le_trans (intTrunc_mono ?_) (le_max_right _ _)
    exact mul_le_mul_of_nonneg_right hab.1 (by norm_num)
  · refine le_trans (intTrunc_mono ?_) (le_max_right _ _)
    exact mul_le_mul_of_nonneg_right (le_of_lt hab.2) (by norm_num)

theorem msOf_wf (p : FlagInterval) : (msOf p).1 ≤ (msOf p).2 := le_max_left _ _

theorem msOf_start_nonneg (p : FlagInterval) : 0 ≤ (msOf p).1 := le_max_left _ _

/-- The kept-audio invariant: for any flagged-interval list and any nonnegative
duration, the total keep length equals the duration minus the sum of the merged
interval lengths clamped (in milliseconds) to `[0, duration]`. -/
theorem invert_merge_sum (l : List FlagInterval) (dur : ℤ) (hdur : 0 ≤ dur) :
    keepTotal (invertIntervals (mergeIntervals l) dur) =
      dur - ((mergeIntervals l).map (clampedMsLen dur)).sum := by
  rcases eq_or_lt_of_le hdur with h0 | hpos
  · rw [← h0]
    rw [invertIntervals, if_pos le_rfl]
    have hsum : ((mergeIntervals l).map (clampedMsLen 0)).sum = 0 := by
      apply List.sum_eq_zero
      intro x hx
      rcases List.mem_map.mp hx with ⟨p, _, hp⟩
      rw [← hp]
      unfold clampedMsLen
      have h1 : min (msEnd p) 0 = 0 :=
        min_eq_right (le_trans (msOf_start_nonneg p) (msOf_wf p))
      have h2 : min (msStart p) 0 = 0 := min_eq_right (msOf_start_nonneg p)
      rw [h1, h2]
      ring
    rw [hsum]
    rfl
  · rw [invertIntervals_eq_spec]
    unfold invertSpec
    have hLwf : ∀ p ∈ (mergeIntervals l).map msOf, p.1 ≤ p.2 := by
      intro p hp
      rcases List.mem_map.mp hp with ⟨x, _, hx⟩
      rw [← hx]
      exact msOf_wf x
    have hwalkwf : ∀ p ∈ invertWalk dur ((mergeIntervals l).map msOf) 0, p.1 ≤ p.2 := by
      intro p hp
      exact ((invertWalk_props dur _ 0 le_rfl (le_of_lt hpos) hLwf).1 p hp).2.1
    rw [keepTotal_filter _ hwalkwf]
    have hhead : ∀ p ∈ ((mergeIntervals l).map msOf).head?, (0 : ℤ) ≤ p.1 := by
      intro p hp
      rcases List.mem_map.mp (List.mem_of_mem_head? hp) with ⟨x, _, hx⟩
      rw [← hx]
      exact msOf_start_nonneg x
    rw [invertWalk_sum dur _ 0 le_rfl (le_of_lt hpos)
      (msOf_chain _ (mergeIntervals_chain l)) hLwf hhead]
    rw [List.map_map]
    have hfun : ((fun p : ℤ × ℤ => min p.2 dur - min p.1 dur) ∘ msOf) =
        clampedMsLen dur := rfl
    rw [hfun]
    omega


/-- `transcription.Segment`: one ASR-produced transcript unit.  The Python
field `end` is spelled `end_` (reserved word in Lean). -/
structure Segment where
  index : ℤ
  start : ℚ
  end_ : ℚ
  text : String
  speaker : Option String
deriving DecidableEq

/-- `diarization.SpeakerTurn`. -/
structure SpeakerTurn where
  speaker : String
  start : ℚ
  end_ : ℚ
deriving DecidableEq

/-- The local `_overlap` helper of `assign_speakers_to_segments`:
`max(0, min(end_a, end_b) - max(start_a, start_b))`. -/
def overlapAmount (startA endA startB endB : ℚ) : ℚ :=
  max 0 (min endA endB - max startA startB)

/-- One step of the inner loop over turns: replace the best candidate whenever
a strictly larger overlap is found. -/
def btStep (s e : ℚ) (acc : Option String × ℚ) (t : SpeakerTurn) : Option String × ℚ :=
  if acc.2 < overlapAmount s e t.start t.end_ then (some t.speaker, overlapAmount s e t.start t.end_)
  else acc

/-- The inner loop of `assign_speakers_to_segments`, starting from
`best_label = None`, `best_overlap = 0.0`. -/
def bestTurn (s e : ℚ) (turns : List SpeakerTurn) : Option String × ℚ :=
  turns.foldl (btStep s e) (none, 0)

/-- Final decision for one segment: assign the best label if one was found and
its overlap meets the threshold, otherwise `None`. -/
def assignedSpeaker (s e : ℚ) (turns : List SpeakerTurn) (minOverlap : ℚ) : Option String :=
  match bestTurn s e turns with
  | (some lbl, bestOv) => if minOverlap ≤ bestOv then some lbl else none
  | (none, _) => none

/-- `assign_speakers_to_segments`: with no turns, return immediately (no
mutation); otherwise write the computed speaker (possibly `None`) into every
segment.  In-place mutation is modelled by returning the updated list. -/
def assignSpeakersToSegments (segments : List Segment) (speakerTurns : List SpeakerTurn)
    (minOverlap : ℚ) : List Segment :=
  if speakerTurns.isEmpty then segments
  else segments.map
    (fun sg => { sg with speaker := assignedSpeaker sg.start sg.end_ speakerTurns minOverlap })

/-- The maximal overlap of `[s, e)` with any of the turns (0 when none). -/
def maxOverlap (s e : ℚ) (turns : List SpeakerTurn) : ℚ :=
  turns.foldl (fun a t => max a (overlapAmount s e t.start t.end_)) 0

theorem overlapAmount_nonneg (a b c d : ℚ) : 0 ≤ overlapAmount a b c d :=
  le_max_left _ _

theorem foldl_max_ge_init (s e : ℚ) :
    ∀ (ts : List SpeakerTurn) (v : ℚ),
      v ≤ ts.foldl (fun a t => max a (overlapAmount s e t.start t.end_)) v := by
  intro ts
  induction ts with
  | nil => intro v; exact le_rfl
  | cons t tl ih =>
    intro v
    exact le_trans (le_max_left v _) (ih (max v (overlapAmount s e t.start t.end_)))

theorem bestTurn_loop (s e : ℚ) :
    ∀ (ts : List SpeakerTurn) (b : Option String) (v : ℚ),
      ts.foldl (btStep s e) (b, v) =
        (if v < ts.foldl (fun a t => max a (overlapAmount s e t.start t.end_)) v
         then (ts.find? (fun t => decide (overlapAmount s e t.start t.end_ =
                 ts.foldl (fun a t => max a (overlapAmount s e t.start t.end_)) v))).map
                (fun t => t.speaker)
         else b,
         ts.foldl (fun a t => max a (overlapAmount s e t.start t.end_)) v) := by
  intro ts
  induction ts with
  | nil =>
    intro b v
    simp [lt_irrefl]
  | cons t tl ih =>
    intro b v
    simp only [List.foldl_cons]
    by_cases hvo : v < overlapAmount s e t.start t.end_
    · rw [show btStep s e (b, v) t = (some t.speaker, overlapAmount s e t.start t.end_) from
        if_pos hvo]
      rw [ih (some t.speaker) (overlapAmount s e t.start t.end_)]
      simp only [max_eq_right (le_of_lt hvo)]
      have hovM : overlapAmount s e t.start t.end_ ≤
          tl.foldl (fun a t => max a (overlapAmount s e t.start t.end_))
            (overlapAmount s e t.start t.end_) :=
        foldl_max_ge_init s e tl _
      rw [if_pos (lt_of_lt_of_le hvo hovM)]
      by_cases heq : overlapAmount s e t.start t.end_ =
          tl.foldl (fun a t => max a (overlapAmount s e t.start t.end_))
            (overlapAmount s e t.start t.end_)
      · rw [List.find?_cons_of_pos _ (by simpa using heq)]
        rw [if_neg (by rw [← heq]; exact lt_irrefl _)]
        rfl
      · rw [List.find?_cons_of_neg _ (by simpa using heq)]
        rw [if_pos (lt_of_le_of_ne hovM heq)]
    · rw [show btStep s e (b, v) t = (b, v) from if_neg hvo]
      rw [ih b v]
      simp only [max_eq_left (not_lt.mp hvo)]
      by_cases hvM : v < tl.foldl (fun a t => max a (overlapAmount s e t.start t.end_)) v
      · rw [if_pos hvM, if_pos hvM]
        have hne : ¬ (overlapAmount s e t.start t.end_ =
            tl.foldl (fun a t => max a (overlapAmount s e t.start t.end_)) v) := by
          intro hcon
          rw [← hcon] at hvM
          exact hvo hvM
        rw [List.find?_cons_of_neg _ (by simpa using hne)]
      · rw [if_neg hvM, if_neg hvM]

theorem bestTurn_spec (s e : ℚ) (ts : List SpeakerTurn) :
    bestTurn s e ts =
      (if 0 < maxOverlap s e ts
       then (ts.find? (fun t => decide (overlapAmount s e t.start t.end_ = maxOverlap s e ts))).map
              (fun t => t.speaker)
       else none,
       maxOverlap s e ts) := by
  unfold bestTurn maxOverlap
  exact bestTurn_loop s e ts none 0

/-- Characterisation of the per-segment decision: the label of the first turn
attaining the maximal overlap, provided that maximum is positive and meets the
threshold; `None` otherwise. -/
theorem assignedSpeaker_eq (s e : ℚ) (ts : List SpeakerTurn) (m : ℚ) :
    assignedSpeaker s e ts m =
      if 0 < maxOverlap s e ts ∧ m ≤ maxOverlap s e ts
      then (ts.find? (fun t => decide (overlapAmount s e t.start t.end_ = maxOverlap s e ts))).map
             (fun t => t.speaker)
      else none := by
  unfold assignedSpeaker
  rw [bestTurn_spec]
  by_cases h0 : 0 < maxOverlap s e ts
  · rw [if_pos h0]
    cases hfind : ts.find? (fun t => decide (overlapAmount s e t.start t.end_ = maxOverlap s e ts)) with
    | none =>
      show (none : Option String) = _
      by_cases hm : m ≤ maxOverlap s e ts
      · rw [if_pos ⟨h0, hm⟩]
        rfl
      · rw [if_neg (fun hc => hm hc.2)]
    | some t =>
      show (if m ≤ maxOverlap s e ts then some t.speaker else none) = _
      by_cases hm : m ≤ maxOverlap s e ts
      · rw [if_pos hm, if_pos ⟨h0, hm⟩]
        rfl
      · rw [if_neg hm, if_neg (fun hc => hm hc.2)]
  · rw [if_neg h0]
    show (none : Option String) = _
    rw [if_neg (fun hc => h0 hc.1)]

/-- JSON values as produced by Python `json.loads`. -/
inductive JsonValue where
  | nul : JsonValue
  | bool (b : Bool) : JsonValue
  | num (q : ℚ) : JsonValue
  | str (s : String) : JsonValue
  | arr (items : List JsonValue) : JsonValue
  | obj (fields : List (String × JsonValue)) : JsonValue

/-- Dictionary access `d["key"]` returning `None` when the key is absent. -/
def jsonGet (fields : List (String × JsonValue)) (key : String) : Option JsonValue :=
  fields.lookup key

/-- Schema fragment `{"type": "integer", "minimum": 0}`. -/
def isIntMin0 : Option JsonValue → Bool
  | some (.num q) => q.den == 1 && decide (0 ≤ q.num)
  | _ => false

/-- Schema fragment `{"type": "string"}`. -/
def isStr : Option JsonValue → Bool
  | some (.str _) => true
  | _ => false

/-- One element of `spans`: requires `quote`, `char_start`, `char_end` with the
schema types (`char_start`/`char_end` integers `>= 0`). -/
def validSpanItem : JsonValue → Bool
  | .obj f =>
    isStr (jsonGet f "quote") && isIntMin0 (jsonGet f "char_start") &&
      isIntMin0 (jsonGet f "char_end")
  | _ => false

/-- The `safety` object: requires boolean `used_asr_confidence_rule` and string
`notes`. -/
def validSafety : JsonValue → Bool
  | .obj f =>
    (match jsonGet f "used_asr_confidence_rule" with
     | some (.bool _) => true
     | _ => false) &&
    isStr (jsonGet f "notes")
  | _ => false

/-- `HateSpeechClassifier.LABELS`. -/
def LABELS : List String :=
  ["NONE", "PROFANITY", "HATE", "EXTREMIST", "BOTH", "UNCLEAR", "UNCLEAR_ASR"]

/-- `jsonschema.validate(response_json, OUTPUT_SCHEMA)` as a boolean check: a
JSON object with a `label` from the closed enum, a `rationale` of at most 500
characters, a `spans` array of valid span objects and a valid `safety`
object.  Extra fields are permitted, as in JSON Schema. -/
def validateOutputSchema : JsonValue → Bool
  | .obj f =>
    (match jsonGet f "label" with
     | some (.str l) => LABELS.contains l
     | _ => false) &&
    (match jsonGet f "rationale" with
     | some (.str r) => decide (r.length ≤ 500)
     | _ => false) &&
    (match jsonGet f "spans" with
     | some (.arr items) => items.all validSpanItem
     | _ => false) &&
    (match jsonGet f "safety" with
     | some sv => validSafety sv
     | _ => false)
  | _ => false

/-- `EvidenceSpan` dataclass. -/
structure EvidenceSpan where
  quote : String
  char_start : ℤ
  char_end : ℤ
deriving DecidableEq

/-- `ClassificationOutput` dataclass; `safety` stays the raw JSON dict, as in
the Python code. -/
structure ClassificationOutput where
  label : String
  rationale : String
  spans : List EvidenceSpan
  safety : JsonValue

/-- `ClassificationInput` dataclass. -/
structure ClassificationInput where
  segment_text : String
  segment_start : ℚ
  segment_end : ℚ
  asr_mean_confidence : ℚ
  confidence_threshold : ℚ
deriving DecidableEq

def getStr : Option JsonValue → String
  | some (.str s) => s
  | _ => ""

def getInt : Option JsonValue → ℤ
  | some (.num q) => q.num
  | _ => 0

/-- Conversion of one validated span object to the dataclass.  The defaults are
never reached on schema-validated input (the schema requires all three keys). -/
def spanOfJson : JsonValue → EvidenceSpan
  | .obj f =>
    { quote := getStr (jsonGet f "quote")
      char_start := getInt (jsonGet f "char_start")
      char_end := getInt (jsonGet f "char_end") }
  | _ => { quote := "", char_start := 0, char_end := 0 }

/-- Conversion of the validated response object to `ClassificationOutput`. -/
def outputOfJson : JsonValue → ClassificationOutput
  | .obj f =>
    { label := getStr (jsonGet f "label")
      rationale := getStr (jsonGet f "rationale")
      spans :=
        match jsonGet f "spans" with
        | some (.arr items) => items.map spanOfJson
        | _ => []
      safety := (jsonGet f "safety").getD .nul }
  | _ => { label := "", rationale := "", spans := [], safety := .nul }

/-- The external effects inside `classify`: the Groq chat-completion call
(which may raise any exception, e.g. a network error), Python `json.loads`
(which may raise `JSONDecodeError`), and the regex extraction of a fenced JSON
block from the response text.  Each is an oracle, so `classify` is analysed
for every possible backend behaviour. -/
structure ModelBackend where
  apiCall : ClassificationInput → Except String String
  jsonLoads : String → Except String JsonValue
  extractFenced : String → Option String

/-- The `try` body of `HateSpeechClassifier.classify`: call the model, parse
the response as JSON (on parse failure, retry on a fenced block if one is
found), validate against `OUTPUT_SCHEMA`, convert to the dataclass.  An
`Except.error` is a raised exception. -/
def classifyAttempt (b : ModelBackend) (input : ClassificationInput) :
    Except String ClassificationOutput :=
  match b.apiCall input with
  | .error e => .error e
  | .ok responseText =>
    match
      (match b.jsonLoads responseText with
       | .ok j => Except.ok j
       | .error e =>
         match b.extractFenced responseText with
         | some inner => b.jsonLoads inner
         | none => Except.error ("Invalid JSON response: " ++ e)) with
    | .error e => .error e
    | .ok responseJson =>
      if validateOutputSchema responseJson then Except.ok (outputOfJson responseJson)
      else Except.error "response_json does not conform to OUTPUT_SCHEMA"

/-- `HateSpeechClassifier.classify`: the blanket `except` converts every
failure of the attempt into the `UNCLEAR` fallback output, so the function is
total. -/
def classify (b : ModelBackend) (input : ClassificationInput) : ClassificationOutput :=
  match classifyAttempt b input with
  | .ok out => out
  | .error e =>
    { label := "UNCLEAR"
      rationale := "Classification failed due to error: " ++ e
      spans := []
      safety := .obj [("used_asr_confidence_rule", .bool false),
                      ("notes", .str ("Error during classification: " ++ e))] }

/-- A schema-valid response carries a label from the closed set, and the
conversion returns exactly that label. -/
theorem label_mem_of_valid {j : JsonValue} (h : validateOutputSchema j = true) :
    (outputOfJson j).label ∈ LABELS := by
  cases j with
  | nul => simp [validateOutputSchema] at h
  | bool b => simp [validateOutputSchema] at h
  | num q => simp [validateOutputSchema] at h
  | str s => simp [validateOutputSchema] at h
  | arr items => simp [validateOutputSchema] at h
  | obj f =>
    simp only [validateOutputSchema, Bool.and_eq_true] at h
    obtain ⟨⟨⟨hl, _⟩, _⟩, _⟩ := h
    show getStr (jsonGet f "label") ∈ LABELS
    cases hv : jsonGet f "label" with
    | none => rw [hv] at hl; cases hl
    | some v =>
      rw [hv] at hl
      cases v with
      | str l =>
        show l ∈ LABELS
        have : List.elem l LABELS = true := hl
        exact List.elem_iff.mp this
      | nul => cases hl
      | bool b => cases hl
      | num q => cases hl
      | arr items => cases hl
      | obj g => cases hl

/-- `transcription.TranscriptionResult`. -/
structure TranscriptionResult where
  text : String
  language : Option String
  segments : List Segment
  duration : Option ℚ
  model_name : String

/-- `moderation_pipeline.ClassifiedSegment`. -/
structure ClassifiedSegment where
  index : ℤ
  start : ℚ
  end_ : ℚ
  text : String
  speaker : Option String
  classification : ClassificationOutput

/-- `moderation_pipeline.ModerationResult`; the sanitized audio path is kept
abstract. -/
structure ModerationResult where
  transcript : String
  language : Option String
  duration : Option ℚ
  model : String
  segments : List ClassifiedSegment
  sanitized_audio_path : Option String
  removed_intervals : List FlagInterval

/-- `AudioModerationPipeline.DEFAULT_REMOVAL_LABELS` (a frozenset; membership
is all that matters). -/
def DEFAULT_REMOVAL_LABELS : List String := ["HATE", "EXTREMIST", "BOTH"]

/-- The flagged intervals collected by the classification loop of `run`: the
`(start, end)` pairs of the segments whose label is in the removal set, in
segment order. -/
def collectRemovalIntervals (tr : TranscriptionResult)
    (classifierFn : Segment → ClassificationOutput) (removalLabels : List String) :
    List FlagInterval :=
  (tr.segments.filter
    (fun s => removalLabels.contains (classifierFn s).label)).map (fun s => (s.start, s.end_))

/-- The `ModerationResult` assembled at the end of `run`. -/
def assembleResult (tr : TranscriptionResult)
    (classifierFn : Segment → ClassificationOutput) (removalLabels : List String)
    (sanitizedAudio : Option String) : ModerationResult :=
  { transcript := tr.text, language := tr.language, duration := tr.duration,
    model := tr.model_name,
    segments := tr.segments.map (fun s =>
      { index := s.index, start := s.start, end_ := s.end_, text := s.text,
        speaker := s.speaker, classification := classifierFn s : ClassifiedSegment }),
    sanitized_audio_path := sanitizedAudio,
    removed_intervals :=
      mergeIntervals (collectRemovalIntervals tr classifierFn removalLabels) }

/-- `AudioModerationPipeline.run`, with the transcription service, the
classifier and the file system abstracted: `tr` is what
`_transcription_service.transcribe` returned, `classifierFn` is
`_classify_segment`, `pydubAvailable` records whether the `pydub` import
succeeded, and `redactedPath` stands for the path `_redact_audio` returns.
`Except.error` models the `RuntimeError` raised by `_redact_audio` when pydub
is unavailable; that exception propagates out of `run`. -/
def runPipeline (tr : TranscriptionResult) (classifierFn : Segment → ClassificationOutput)
    (removalLabels : List String) (pydubAvailable : Bool) (redactedPath : String) :
    Except String ModerationResult :=
  if (collectRemovalIntervals tr classifierFn removalLabels).isEmpty then
    Except.ok (assembleResult tr classifierFn removalLabels none)
  else if pydubAvailable then
    Except.ok (assembleResult tr classifierFn removalLabels (some redactedPath))
  else
    Except.error "Audio redaction requires the pydub package."

theorem mergeIntervals_nil : mergeIntervals [] = [] := rfl

/-- C2: inversion computes the complement of the merged intervals against the
total duration exactly as specified: walking left to right, it emits
`[cursor, min(start, duration))` whenever `start > cursor`, advances the
cursor to `max(cursor, min(end, duration))`, emits a trailing
`[cursor, duration)` if `cursor < duration`, and drops every zero-length
range (`invertSpec` is that walk verbatim; the code additionally converts
each interval to milliseconds via `msOf`, so duration 10 s is 10000 ms and the
example keep ranges appear at the millisecond scale). -/
theorem C2_invert_matches_spec :
    (∀ (l : List FlagInterval) (dur : ℤ),
        invertIntervals l dur = invertSpec (l.map msOf) dur) ∧
    invertIntervals [(2, 4), (7, 9)] 10000 = [(0, 2000), (4000, 7000), (9000, 10000)] ∧
    invertIntervals [(0, 5)] 5000 = [] := by
  refine ⟨invertIntervals_eq_spec, ?_, ?_⟩
  · norm_num [invertIntervals, invertGo, intTrunc_ofNat, min_def, max_def]
  · norm_num [invertIntervals, invertGo, intTrunc_ofNat, intTrunc_zero, min_def, max_def]

/-- C3 counterexample: for the input interval `(-5, -3)` the merge step
produces the processed interval `(0, -3)`, whose end is strictly below its
start — refuting the claim that every processed interval satisfies
`end >= start` after clamping. -/
theorem C3_counterexample :
    mergeIntervals [((-5 : ℚ), (-3 : ℚ))] = [(0, -3)] ∧ ¬ ((0 : ℚ) ≤ -3) := by
  constructor
  · decide
  · norm_num

/-- C3 (amended): the merge step sorts by start, clamps negative starts to
zero, and replaces each end with `max(start, end)` — so `end >= start` holds
for every processed interval whenever each input interval has a nonnegative
endpoint (it can fail when both endpoints are negative); the output is always
a list with nonnegative starts whose consecutive intervals are ordered and
separated by a positive gap (touching and overlapping intervals are merged
identically, with no gap tolerance). -/
theorem C3_merge_structure (l : List FlagInterval) :
    List.Chain' (fun a b : FlagInterval => a.1 ≤ b.1 ∧ a.2 < b.1) (mergeIntervals l) ∧
    (∀ p ∈ mergeIntervals l, 0 ≤ p.1) ∧
    ((∀ p ∈ l, 0 ≤ p.1 ∨ 0 ≤ p.2) → ∀ p ∈ mergeIntervals l, p.1 ≤ p.2) :=
  ⟨mergeIntervals_chain l, mergeIntervals_start_nonneg l, mergeIntervals_wf l⟩

theorem C3_witness :
    List.Chain' (fun a b : FlagInterval => a.1 ≤ b.1 ∧ a.2 < b.1)
      (mergeIntervals [(1, 3), (2, 4), (5, 6)]) ∧
    (∀ p ∈ mergeIntervals [(1, 3), (2, 4), (5, 6)], 0 ≤ p.1 ∧ p.1 ≤ p.2) :=
  ⟨(C3_merge_structure [(1, 3), (2, 4), (5, 6)]).1,
   fun p hp => ⟨(C3_merge_structure [(1, 3), (2, 4), (5, 6)]).2.1 p hp,
     (C3_merge_structure [(1, 3), (2, 4), (5, 6)]).2.2 (by decide) p hp⟩⟩

/-- C4: for every flagged-interval list and every nonnegative duration, the
total length of the keep ranges equals the duration minus the sum of the
merged interval lengths clamped to `[0, duration]` (all quantities in the
millisecond scale on which `_invert_intervals` operates). -/
theorem C4_kept_duration (l : List FlagInterval) (dur : ℤ) (hdur : 0 ≤ dur) :
    keepTotal (invertIntervals (mergeIntervals l) dur) =
      dur - ((mergeIntervals l).map (clampedMsLen dur)).sum :=
  invert_merge_sum l dur hdur

theorem C4_witness :
    keepTotal (invertIntervals (mergeIntervals [(1, 2), (4, 9)]) 5000) =
      5000 - ((mergeIntervals [(1, 2), (4, 9)]).map (clampedMsLen 5000)).sum :=
  C4_kept_duration [(1, 2), (4, 9)] 5000 (by norm_num)

/-- C8 counterexample: merging `[(-5, -3)]` yields `[(0, -3)]`, but merging
that output again yields `[(0, 0)]` — so the merge step is not idempotent on
arbitrary inputs. -/
theorem C8_counterexample :
    mergeIntervals (mergeIntervals [((-5 : ℚ), (-3 : ℚ))]) ≠
      mergeIntervals [((-5 : ℚ), (-3 : ℚ))] := by
  decide

/-- C8 (amended): interval merging is idempotent on every input whose
intervals each have a nonnegative endpoint (which includes all well-formed
nonnegative intervals); in particular merging `[(1,3),(2,4),(5,6)]` yields
`[(1,4),(5,6)]` and merging that result again returns it unchanged. -/
theorem C8_merge_idempotent (l : List FlagInterval) :
    ((∀ p ∈ l, 0 ≤ p.1 ∨ 0 ≤ p.2) →
      mergeIntervals (mergeIntervals l) = mergeIntervals l) ∧
    mergeIntervals [(1, 3), (2, 4), (5, 6)] = [(1, 4), (5, 6)] ∧
    mergeIntervals [(1, 4), (5, 6)] = [(1, 4), (5, 6)] :=
  ⟨mergeIntervals_idem l, by decide, by decide⟩

theorem C8_witness :
    mergeIntervals (mergeIntervals [(1, 3), (2, 4), (5, 6)]) =
      mergeIntervals [(1, 3), (2, 4), (5, 6)] :=
  (C8_merge_idempotent [(1, 3), (2, 4), (5, 6)]).1 (by decide)

/-- C9: for every input interval list (sorted or not) and every duration, the
keep ranges returned by `_invert_intervals` have nonnegative starts, positive
length, ends at most the duration, and are pairwise ordered and disjoint
(each range ends no later than every later range starts); for a nonpositive
duration the result is empty. -/
theorem C9_invert_invariants (l : List FlagInterval) (dur : ℤ) :
    (∀ p ∈ invertIntervals l dur, 0 ≤ p.1 ∧ p.1 < p.2 ∧ p.2 ≤ dur) ∧
    (invertIntervals l dur).Pairwise (fun a b => a.2 ≤ b.1) ∧
    (dur ≤ 0 → invertIntervals l dur = []) := by
  by_cases hdur : dur ≤ 0
  · rw [invertIntervals, if_pos hdur]
    exact ⟨fun p hp => absurd hp (List.not_mem_nil p), List.Pairwise.nil, fun _ => rfl⟩
  · have hpos : (0 : ℤ) ≤ dur := le_of_lt (lt_of_not_le hdur)
    have hLwf : ∀ p ∈ l.map msOf, p.1 ≤ p.2 := by
      intro p hp
      rcases List.mem_map.mp hp with ⟨x, _, hx⟩
      rw [← hx]
      exact msOf_wf x
    have hprops := invertWalk_props dur (l.map msOf) 0 le_rfl hpos hLwf
    have heq := invertIntervals_eq_spec l dur
    rw [invertSpec] at heq
    refine ⟨?_, ?_, fun hcon => absurd hcon hdur⟩
    · intro p hp
      rw [heq] at hp
      have hmem := List.mem_of_mem_filter hp
      have hstrict : p.1 < p.2 := by
        have := List.of_mem_filter hp
        simpa using this
      obtain ⟨h1, _, h3⟩ := hprops.1 p hmem
      exact ⟨h1, hstrict, h3⟩
    · rw [heq]
      exact hprops.2.filter _

theorem C9_witness : invertIntervals [(2, 4)] (-5) = [] :=
  (C9_invert_invariants [(2, 4)] (-5)).2.2 (by decide)

/-- C6 counterexample: for segment `[0, 1)` and the single turn `A:[2, 3)`
with `min_overlap = 0`, the maximal overlap is `0 >= min_overlap`, so the
claim requires the turn with maximal overlap (`A`) to be assigned — but the
code only replaces the initial `(None, 0.0)` candidate on a strictly larger
overlap, so it assigns `None`. -/
theorem C6_counterexample :
    (assignSpeakersToSegments [(⟨0, 0, 1, "x", none⟩ : Segment)]
        [(⟨"A", 2, 3⟩ : SpeakerTurn)] 0).map Segment.speaker = [none] ∧
    maxOverlap 0 1 [(⟨"A", 2, 3⟩ : SpeakerTurn)] = 0 ∧ (0 : ℚ) ≤ 0 := by
  refine ⟨?_, ?_, le_rfl⟩
  · norm_num [assignSpeakersToSegments, assignedSpeaker, bestTurn, btStep, overlapAmount,
      min_def, max_def]
  · norm_num [maxOverlap, overlapAmount, min_def, max_def]

/-- C6 (amended): for every segment and non-empty turn list, the assignment
computes each overlap as `max(0, min(seg.end, turn.end) - max(seg.start,
turn.start))` and assigns the speaker of the first turn attaining the maximal
overlap — provided that maximum is strictly positive and at least
`min_overlap_seconds`; otherwise (including when every overlap is zero) it
assigns `None`.  Ties resolve to the first turn in input order.  In
particular, for segment `[0,2)` and turns `A:[0,1.6)`, `B:[1.6,3.0)` with
`min_overlap = 0`, speaker `A` is assigned. -/
theorem C6_overlap_assignment (s e : ℚ) (ts : List SpeakerTurn) (m : ℚ)
    (_hts : ts ≠ []) :
    assignedSpeaker s e ts m =
      (if 0 < maxOverlap s e ts ∧ m ≤ maxOverlap s e ts
       then (ts.find? (fun t =>
              decide (overlapAmount s e t.start t.end_ = maxOverlap s e ts))).map
              (fun t => t.speaker)
       else none) ∧
    (assignSpeakersToSegments [(⟨0, 0, 2, "x", none⟩ : Segment)]
        [(⟨"A", 0, 1.6⟩ : SpeakerTurn), (⟨"B", 1.6, 3.0⟩ : SpeakerTurn)] 0).map
        Segment.speaker = [some "A"] := by
  refine ⟨assignedSpeaker_eq s e ts m, ?_⟩
  norm_num [assignSpeakersToSegments, assignedSpeaker, bestTurn, btStep, overlapAmount,
    min_def, max_def]

theorem C6_witness :
    (assignSpeakersToSegments [(⟨0, 0, 2, "x", none⟩ : Segment)]
        [(⟨"A", 0, 1.6⟩ : SpeakerTurn), (⟨"B", 1.6, 3.0⟩ : SpeakerTurn)] 0).map
        Segment.speaker = [some "A"] :=
  (C6_overlap_assignment 0 2 [⟨"A", 0, 1.6⟩, ⟨"B", 1.6, 3.0⟩] 0 (by simp)).2

/-- C10: speaker assignment only ever writes the `speaker` field (index,
start, end and text are preserved, and the turn list — a read-only input in
this functional model — is untouched); with an empty turn list it returns the
segments entirely unchanged, and with a non-empty turn list it writes the
computed speaker into every segment, a value that depends only on the
segment's times and the turns — so any previously assigned speaker is
overwritten, with `None` when the best overlap misses the threshold. -/
theorem C10_frame_effect (ts : List SpeakerTurn) (m : ℚ) :
    (∀ segs : List Segment,
      (assignSpeakersToSegments segs ts m).map
          (fun sg => (sg.index, sg.start, sg.end_, sg.text)) =
        segs.map (fun sg => (sg.index, sg.start, sg.end_, sg.text))) ∧
    (∀ segs : List Segment, assignSpeakersToSegments segs [] m = segs) ∧
    (ts ≠ [] → ∀ segs : List Segment,
      (assignSpeakersToSegments segs ts m).map Segment.speaker =
        segs.map (fun sg => assignedSpeaker sg.start sg.end_ ts m)) := by
  refine ⟨?_, ?_, ?_⟩
  · intro segs
    unfold assignSpeakersToSegments
    split
    · rfl
    · rw [List.map_map]
      rfl
  · intro segs
    rfl
  · intro hts segs
    unfold assignSpeakersToSegments
    rw [if_neg (by simpa using hts)]
    rw [List.map_map]
    rfl

theorem C10_witness :
    (assignSpeakersToSegments [(⟨0, 0, 1, "x", some "OLD"⟩ : Segment)]
        [(⟨"A", 5, 6⟩ : SpeakerTurn)] 10).map Segment.speaker =
      [(⟨0, 0, 1, "x", some "OLD"⟩ : Segment)].map
        (fun sg => assignedSpeaker sg.start sg.end_ [(⟨"A", 5, 6⟩ : SpeakerTurn)] 10) :=
  (C10_frame_effect [⟨"A", 5, 6⟩] 10).2.2 (by simp) [⟨0, 0, 1, "x", some "OLD"⟩]

/-- The attempt only succeeds with the conversion of a schema-valid response. -/
theorem classifyAttempt_ok {b : ModelBackend} {input : ClassificationInput}
    {out : ClassificationOutput} (h : classifyAttempt b input = Except.ok out) :
    ∃ j, validateOutputSchema j = true ∧ out = outputOfJson j := by
  unfold classifyAttempt at h
  split at h
  · cases h
  · split at h
    · cases h
    · rename_i j hj
      split at h
      · rename_i hv
        refine ⟨j, hv, ?_⟩
        cases h
        rfl
      · cases h

/-- C1: `classify` never raises — for every backend behaviour (network
failure, malformed JSON, schema violation, or success) it returns a
`ClassificationOutput` whose label lies in the closed label set; on every
failure path the label is `UNCLEAR`, the rationale describes the failure and
`safety.notes` carries the diagnostic detail. -/
theorem C1_classifier_totality (b : ModelBackend) (input : ClassificationInput) :
    (classify b input).label ∈ LABELS ∧
    (∀ e, classifyAttempt b input = Except.error e →
      (classify b input).label = "UNCLEAR" ∧
      (classify b input).rationale = "Classification failed due to error: " ++ e ∧
      (classify b input).safety =
        JsonValue.obj [("used_asr_confidence_rule", JsonValue.bool false),
          ("notes", JsonValue.str ("Error during classification: " ++ e))]) := by
  constructor
  · unfold classify
    cases h : classifyAttempt b input with
    | ok out =>
      obtain ⟨j, hv, hout⟩ := classifyAttempt_ok h
      show out.label ∈ LABELS
      rw [hout]
      exact label_mem_of_valid hv
    | error e =>
      show "UNCLEAR" ∈ LABELS
      decide
  · intro e he
    unfold classify
    rw [he]
    exact ⟨rfl, rfl, rfl⟩

/-- A backend whose chat-completion call raises (network failure). -/
def netFailBackend : ModelBackend where
  apiCall := fun _ => Except.error "network unreachable"
  jsonLoads := fun _ => Except.error "Expecting value"
  extractFenced := fun _ => none

def sampleInput : ClassificationInput where
  segment_text := "hello"
  segment_start := 0
  segment_end := 1
  asr_mean_confidence := 0.85
  confidence_threshold := 0.45

theorem C1_witness :
    (classify netFailBackend sampleInput).label = "UNCLEAR" ∧
    (classify netFailBackend sampleInput).rationale =
      "Classification failed due to error: " ++ "network unreachable" ∧
    (classify netFailBackend sampleInput).safety =
      JsonValue.obj [("used_asr_confidence_rule", JsonValue.bool false),
        ("notes", JsonValue.str ("Error during classification: " ++ "network unreachable"))] :=
  (C1_classifier_totality netFailBackend sampleInput).2 "network unreachable" rfl

/-- A schema-valid model response labelling the segment `NONE`. -/
def noneJson : JsonValue :=
  JsonValue.obj
    [("label", JsonValue.str "NONE"),
     ("rationale", JsonValue.str "clean"),
     ("spans", JsonValue.arr []),
     ("safety", JsonValue.obj
        [("used_asr_confidence_rule", JsonValue.bool false),
         ("notes", JsonValue.str "")])]

/-- A backend whose model answers `NONE` regardless of the input confidence. -/
def modelSaysNoneBackend : ModelBackend where
  apiCall := fun _ => Except.ok "resp"
  jsonLoads := fun _ => Except.ok noneJson
  extractFenced := fun _ => none

/-- An input whose ASR confidence (0.30) is below the threshold (0.45). -/
def lowConfInput : ClassificationInput where
  segment_text := "maybe"
  segment_start := 0
  segment_end := 1
  asr_mean_confidence := 0.30
  confidence_threshold := 0.45

/-- C7 counterexample: `classify` performs no local confidence check, so for
an input with `asr_mean_confidence = 0.30 < 0.45 = confidence_threshold` and a
schema-valid model response labelled `NONE`, the result is `NONE`, not the
claimed `UNCLEAR_ASR` short-circuit. -/
theorem C7_counterexample :
    lowConfInput.asr_mean_confidence < lowConfInput.confidence_threshold ∧
    (classify modelSaysNoneBackend lowConfInput).label = "NONE" ∧
    (classify modelSaysNoneBackend lowConfInput).label ≠ "UNCLEAR_ASR" := by
  refine ⟨by norm_num [lowConfInput], ?_, ?_⟩
  · rfl
  · decide

/-- C7 (amended): the low-confidence rule is delegated to the model through
the system prompt; `classify` itself never inspects `asr_mean_confidence` or
`confidence_threshold` — whenever the model call succeeds and the response
parses and validates, the returned output is exactly the converted response,
whatever the input confidence.  `UNCLEAR_ASR` is produced only when the model
response carries it. -/
theorem C7_confidence_rule_delegated (b : ModelBackend) (input : ClassificationInput)
    (t : String) (j : JsonValue) (h1 : b.apiCall input = Except.ok t)
    (h2 : b.jsonLoads t = Except.ok j) (h3 : validateOutputSchema j = true) :
    classify b input = outputOfJson j := by
  unfold classify
  have hatt : classifyAttempt b input = Except.ok (outputOfJson j) := by
    simp only [classifyAttempt, h1, h2, h3, if_true]
  rw [hatt]

theorem C7_witness : classify modelSaysNoneBackend lowConfInput = outputOfJson noneJson :=
  C7_confidence_rule_delegated modelSaysNoneBackend lowConfInput "resp" noneJson
    rfl rfl (by decide)

/-- C5: redaction is invoked exactly when some classified segment's label lies
in the removal set.  With no flagged segment the run succeeds with no
sanitized audio path and an empty `removed_intervals` (the original audio is
never touched, since `_redact_audio` is not called); with a flagged segment
and pydub available it succeeds carrying the redacted path; with a flagged
segment and pydub unavailable the run raises instead of silently skipping the
redaction. -/
theorem C5_redaction_gate (tr : TranscriptionResult)
    (cf : Segment → ClassificationOutput) (labels : List String)
    (pydub : Bool) (path : String) :
    ((∀ s ∈ tr.segments, (cf s).label ∉ labels) →
      ∃ r, runPipeline tr cf labels pydub path = Except.ok r ∧
        r.sanitized_audio_path = none ∧ r.removed_intervals = []) ∧
    ((∃ s ∈ tr.segments, (cf s).label ∈ labels) → pydub = true →
      ∃ r, runPipeline tr cf labels pydub path = Except.ok r ∧
        r.sanitized_audio_path = some path) ∧
    ((∃ s ∈ tr.segments, (cf s).label ∈ labels) → pydub = false →
      runPipeline tr cf labels pydub path =
        Except.error "Audio redaction requires the pydub package.") := by
  refine ⟨?_, ?_, ?_⟩
  · intro hnone
    have hfilter : tr.segments.filter (fun s => labels.contains (cf s).label) = [] := by
      rw [List.filter_eq_nil_iff]
      intro a ha hcon
      exact hnone a ha (List.elem_iff.mp hcon)
    have hcond : (collectRemovalIntervals tr cf labels).isEmpty = true := by
      unfold collectRemovalIntervals
      rw [hfilter]
      rfl
    refine ⟨assembleResult tr cf labels none, ?_, rfl, ?_⟩
    · unfold runPipeline
      rw [if_pos hcond]
    · show mergeIntervals (collectRemovalIntervals tr cf labels) = []
      unfold collectRemovalIntervals
      rw [hfilter]
      rfl
  · intro hsome hpy
    obtain ⟨s, hs, hmem⟩ := hsome
    have hcond : (collectRemovalIntervals tr cf labels).isEmpty = false := by
      rw [Bool.eq_false_iff]
      intro hcon
      unfold collectRemovalIntervals at hcon
      rw [List.isEmpty_iff, List.map_eq_nil_iff, List.filter_eq_nil_iff] at hcon
      exact hcon s hs (List.elem_iff.mpr hmem)
    refine ⟨assembleResult tr cf labels (some path), ?_, rfl⟩
    unfold runPipeline
    rw [if_neg (by rw [hcond]; exact Bool.false_ne_true), hpy, if_pos rfl]
  · intro hsome hpy
    obtain ⟨s, hs, hmem⟩ := hsome
    have hcond : (collectRemovalIntervals tr cf labels).isEmpty = false := by
      rw [Bool.eq_false_iff]
      intro hcon
      unfold collectRemovalIntervals at hcon
      rw [List.isEmpty_iff, List.map_eq_nil_iff, List.filter_eq_nil_iff] at hcon
      exact hcon s hs (List.elem_iff.mpr hmem)
    unfold runPipeline
    rw [if_neg (by rw [hcond]; exact Bool.false_ne_true), hpy]
    rfl

/-- A stub classification flagging everything as `HATE`. -/
def hateOutput : ClassificationOutput where
  label := "HATE"
  rationale := "flagged"
  spans := []
  safety := JsonValue.nul

/-- A one-segment transcription result. -/
def sampleTranscription : TranscriptionResult where
  text := "bad words"
  language := some "en"
  segments := [⟨0, 0, 1, "bad words", none⟩]
  duration := some 1
  model_name := "stub"

theorem C5_witness :
    (runPipeline sampleTranscription (fun _ => hateOutput) DEFAULT_REMOVAL_LABELS
        true "out.wav").map (fun r => r.sanitized_audio_path) =
      Except.ok (some "out.wav") := by
  obtain ⟨r, hr, hs⟩ :=
    (C5_redaction_gate sampleTranscription (fun _ => hateOutput) DEFAULT_REMOVAL_LABELS
        true "out.wav").2.1
      ⟨⟨0, 0, 1, "bad words", none⟩, by simp [sampleTranscription], by decide⟩ rfl
  rw [hr]
  simp [Except.map, hs]
